import Mathlib

/-!
Verification of the clearnet custody / ledger-replication core.

The Go sources are embedded shallowly:

* Go strings are modelled as `List Char` (identifiers in this system are
  ASCII); Go `map[string]V` is modelled as a function `Str → Option V`
  (a missing key is `none`).
* `*big.Int` is modelled as `Int`; `uint64` version counters as `Nat`.
* Wall-clock instants (`time.Time`) are modelled as `Int` on a single
  timeline, with Go's zero `time.Time` placed at the origin; durations
  (`time.Duration`) are `Int`.  `time.Since(t)` at instant `now` is
  `now - t`.
* A Go method that mutates the receiver and returns `error` becomes a
  function returning `Except VaultError Vault` (an `error` return leaves
  the caller's state unchanged, exactly as in the source, where every
  error path returns before any mutation unless noted).
* Sends on the buffered event channel are modelled by appending to an
  `events` list; the fan-out goroutine is outside the scope of the
  functional claims treated here.
-/

/-- Go `string`, as a list of characters. -/
abbrev Str := List Char

/-- Model of `core.State` (pkg/core): the versioned ledger snapshot.
Field names follow the Go struct; `Version` is the height. -/
structure State where
  wallet : Str
  token : Str
  version : Nat
  balance : Int
  participants : List Str
  sigs : List Str
  deriving DecidableEq, Repr

/-- Point update of a Go map (`m[k] = v`). -/
def mapSet {α : Type} (m : Str → Option α) (k : Str) (v : α) : Str → Option α :=
  fun x => if x = k then some v else m x

/-- Deletion from a Go map (`delete(m, k)`). -/
def mapErase {α : Type} (m : Str → Option α) (k : Str) : Str → Option α :=
  fun x => if x = k then none else m x

/-- Events pushed on the mock chain's event bus (`ports.BlockchainEvent`
with its payload structs). -/
inductive Event where
  | deposited (wallet token : Str) (amount : Int)
  | withdrawalRequested (state : State)
  | challenged (state : State) (challenger : Str)
  | withdrawn (wallet : Str) (amount : Int)
  deriving DecidableEq, Repr

/-- Error returns of the mock vault (`errors.New` / `fmt.Errorf` messages in
`mockchain.go`). -/
inductive VaultError where
  | noParticipants
  | unauthorizedParticipant (p : Str)
  | noPendingRequest
  | challengeNotNewer
  | challengePeriodNotOver
  deriving DecidableEq, Repr

/-- Model of `mockchain.VaultContract`: the custodian state.
`balances` is keyed by wallet only, as in the source (the token argument of
`Deposit` is recorded in the event but not in the balance key). -/
structure Vault where
  balances : Str → Option Int
  pendingRequests : Str → Option State
  requestTime : Str → Option Int
  nodeRegistry : Str → Bool
  challengePeriod : Int
  events : List Event

/-- Model of `NewVaultContract`: all maps empty. -/
def emptyVault (challengePeriod : Int) : Vault where
  balances := fun _ => none
  pendingRequests := fun _ => none
  requestTime := fun _ => none
  nodeRegistry := fun _ => false
  challengePeriod := challengePeriod
  events := []

/-- Model of `VaultContract.AddNode`. -/
def addNode (vc : Vault) (nodeID : Str) : Vault :=
  { vc with nodeRegistry := fun x => if x = nodeID then true else vc.nodeRegistry x }

/-- Model of `VaultContract.Deposit`: adds `amount` to the wallet's balance
(missing entry read as 0, as in the source) and emits `Deposited`.
The source never returns an error here. -/
def deposit (vc : Vault) (wallet token : Str) (amount : Int) : Vault :=
  let current := (vc.balances wallet).getD 0
  { vc with
    balances := mapSet vc.balances wallet (current + amount)
    events := vc.events ++ [Event.deposited wallet token amount] }

/-- First participant failing the registry check, mirroring the Go loop
that returns at the first unauthorized participant. -/
def firstUnauthorized (vc : Vault) (ps : List Str) : Option Str :=
  ps.find? (fun p => !vc.nodeRegistry p)

/-- Model of `VaultContract.RequestWithdrawal` at instant `now`
(`time.Now()` of the call).  Checks: non-empty participants, every
participant authorized; then unconditionally stores the state as the
pending request (overwriting any existing one — the source has no
pending-exists check), records the request time and emits
`WithdrawalRequested`. -/
def requestWithdrawal (vc : Vault) (state : State) (now : Int) :
    Except VaultError Vault :=
  if state.participants = [] then
    .error .noParticipants
  else
    match firstUnauthorized vc state.participants with
    | some p => .error (.unauthorizedParticipant p)
    | none =>
        .ok { vc with
          pendingRequests := mapSet vc.pendingRequests state.wallet state
          requestTime := mapSet vc.requestTime state.wallet now
          events := vc.events ++ [Event.withdrawalRequested state] }

/-- Model of `VaultContract.Challenge`.  Checks, in source order: every
candidate participant authorized (an empty list passes the loop); a pending
request exists for the candidate's wallet; the candidate's version is
strictly newer.  On success deletes the pending request and its request
time and emits `Challenged`. -/
def challenge (vc : Vault) (candidate : State) (challengerID : Str) :
    Except VaultError Vault :=
  match firstUnauthorized vc candidate.participants with
  | some p => .error (.unauthorizedParticipant p)
  | none =>
      match vc.pendingRequests candidate.wallet with
      | none => .error .noPendingRequest
      | some pending =>
          if candidate.version ≤ pending.version then
            .error .challengeNotNewer
          else
            .ok { vc with
              pendingRequests := mapErase vc.pendingRequests candidate.wallet
              requestTime := mapErase vc.requestTime candidate.wallet
              events := vc.events ++ [Event.challenged candidate challengerID] }

/-- Result of `VaultContract.Withdraw`.  `panics` models the nil-pointer
dereference the source hits when `vc.balances[wallet]` is absent after the
period check (`currentBal.Cmp` on a nil `*big.Int`). -/
inductive WithdrawResult where
  | ok (vc : Vault)
  | err (e : VaultError)
  | panics

/-- Model of `VaultContract.Withdraw` at instant `now`.  Checks, in source
order: a pending request exists; the elapsed time since the request is at
least the challenge period (`elapsed < ChallengePeriod` is rejected).  On
success debits the wallet's balance by the pending state's `Balance`
(no insufficiency check — the `if currentBal.Cmp(...) < 0` block in the
source is empty), deletes the pending request and its time and emits
`Withdrawn` with that amount. -/
def withdraw (vc : Vault) (wallet : Str) (now : Int) : WithdrawResult :=
  match vc.pendingRequests wallet with
  | none => .err .noPendingRequest
  | some pending =>
      let elapsed := now - (vc.requestTime wallet).getD 0
      if elapsed < vc.challengePeriod then
        .err .challengePeriodNotOver
      else
        match vc.balances wallet with
        | none => .panics
        | some currentBal =>
            .ok { vc with
              balances := mapSet vc.balances wallet (currentBal - pending.balance)
              pendingRequests := mapErase vc.pendingRequests wallet
              requestTime := mapErase vc.requestTime wallet
              events := vc.events ++ [Event.withdrawn wallet pending.balance] }

/-- State of the vault after a call that reports errors to the caller:
an error leaves the custodian unchanged. -/
def afterExcept (r : Except VaultError Vault) (vc : Vault) : Vault :=
  match r with
  | .ok v => v
  | .error _ => vc

/-- Vault carried by a successful `withdraw`, or the original on
error (used to exhibit concrete runs). -/
def withdrawVault (r : WithdrawResult) (vc : Vault) : Vault :=
  match r with
  | .ok v => v
  | _ => vc

/-- Model of `node.Node` (pkg/node): the watcher's identity and its local
snapshot store (`Wallet -> State`).  The chain/p2p/registry ports are
modelled by the actions the handlers perform, not stored here. -/
structure NodeS where
  id : Str
  store : Str → Option State

/-- Outbound action taken by `Node.handleWithdrawalRequest`: either nothing,
or a call `chain.Challenge(localState, n.ID)`. -/
inductive NodeAction where
  | none
  | challengeCall (localState : State) (challengerID : Str)
  deriving DecidableEq, Repr

/-- Model of `Node.OnNewState`: if a state is stored for the wallet and its
version is greater or equal, ignore; otherwise store the new state.  The
source performs no other check (its comment defers quorum-signature
verification: "We assume if it reached us via P2P and looks valid, we store
it"). -/
def onNewState (n : NodeS) (state : State) : NodeS :=
  match n.store state.wallet with
  | some current =>
      if state.version ≤ current.version then n
      else { n with store := mapSet n.store state.wallet state }
  | none => { n with store := mapSet n.store state.wallet state }

/-- Model of `Node.handleWithdrawalRequest`: with no stored state for the
wallet, ignore; with a stored state of strictly greater version, challenge
with the stored state; otherwise do nothing.  The node's store is never
modified by this handler. -/
def handleWithdrawalRequest (n : NodeS) (reqState : State) :
    NodeS × NodeAction :=
  match n.store reqState.wallet with
  | none => (n, .none)
  | some localState =>
      if reqState.version < localState.version then
        (n, .challengeCall localState n.id)
      else
        (n, .none)

/-- Model of `mockp2p.MockP2P`: the sorted list of registered node IDs
(the handler map is not needed for the quorum-selection claim). -/
structure MockP2P where
  nodeIDs : List Str

/-- One bit-step of the reflected CRC-32 (IEEE polynomial 0xEDB88320), as
computed by Go's `hash/crc32` for `crc32.IEEE`. -/
def crc32Round (crc : Nat) : Nat :=
  if crc % 2 = 1 then (crc / 2) ^^^ 0xEDB88320 else crc / 2

/-- CRC-32 update by one byte: xor the byte in, then eight bit-steps. -/
def crc32Byte (crc b : Nat) : Nat :=
  crc32Round^[8] (crc ^^^ (b % 256))

/-- Model of `crc32.ChecksumIEEE` over a byte sequence. -/
def crc32 (bytes : List Nat) : Nat :=
  (bytes.foldl crc32Byte 0xFFFFFFFF) ^^^ 0xFFFFFFFF

/-- Bytes of a Go string (identifiers here are ASCII, so the UTF-8 bytes
are the code points). -/
def strBytes (s : Str) : List Nat :=
  s.map Char.toNat

/-- Model of `MockP2P.GetQuorumNodes`: nil when no nodes are registered;
otherwise start at `crc32(wallet) % N` and take `k` entries walking the
ring with wrap-around. -/
def getQuorumNodes (p : MockP2P) (wallet : Str) (k : Nat) : List Str :=
  if h : p.nodeIDs.length = 0 then []
  else
    let idx := crc32 (strBytes wallet) % p.nodeIDs.length
    (List.range k).map fun i =>
      p.nodeIDs.get ⟨(idx + i) % p.nodeIDs.length,
        Nat.mod_lt _ (Nat.pos_of_ne_zero h)⟩

/-- Decimal digit character, `48 + d` being the code point of the digit. -/
def digitChar (d : Nat) : Char :=
  Char.ofNat (48 + d)

/-- Decimal digits of `n`, most significant first, by repeated division
(`fuel` bounds the recursion; `fuel = n` suffices). -/
def natCharsAux : Nat → Nat → List Char
  | 0, _ => []
  | fuel + 1, n =>
      if n = 0 then []
      else natCharsAux fuel (n / 10) ++ [digitChar (n % 10)]

/-- Decimal representation of a natural number, as printed by Go's `%d`. -/
def natChars (n : Nat) : List Char :=
  if n = 0 then ['0'] else natCharsAux n n

/-- Decimal representation of an integer, as printed by `big.Int.String`:
a leading minus sign for negative values. -/
def intChars (i : Int) : List Char :=
  if i < 0 then '-' :: natChars i.natAbs else natChars i.toNat

/-- Comma-join of a list of strings, as `strings.Join(xs, ",")`. -/
def joinComma : List Str → List Char
  | [] => []
  | [p] => p
  | p :: rest => p ++ ',' :: joinComma rest

/-- Model of the string built by `core.State.Hash` and fed to SHA-256:
`fmt.Sprintf("%s:%s:%d:%s:%s", wallet, token, version, balance.String(),
strings.Join(participants, ","))`.  The digest of a snapshot is the hash
of this encoding, so two snapshots have equal digests (for a collision-free
hash) exactly when their encodings are equal. -/
def encodeState (s : State) : List Char :=
  s.wallet ++ ':' :: (s.token ++ ':' :: (natChars s.version ++
    ':' :: (intChars s.balance ++ ':' :: joinComma s.participants)))

/-- One invocation of a custodian entry point (`AddNode`, `Deposit`,
`RequestWithdrawal`, `Challenge`, `Withdraw`), with the wall-clock instant
of the calls that read the clock. -/
inductive Op where
  | addNodeOp (nodeID : Str)
  | depositOp (wallet token : Str) (amount : Int)
  | requestOp (state : State) (now : Int)
  | challengeOp (candidate : State) (challenger : Str)
  | withdrawOp (wallet : Str) (now : Int)

/-- Effect of one operation on the custodian: an error return leaves the
state unchanged; the nil-dereference in `Withdraw` (no state survives the
panic) is `none`. -/
def step (vc : Vault) : Op → Option Vault
  | .addNodeOp nodeID => some (addNode vc nodeID)
  | .depositOp w t a => some (deposit vc w t a)
  | .requestOp s now => some (afterExcept (requestWithdrawal vc s now) vc)
  | .challengeOp c ch => some (afterExcept (challenge vc c ch) vc)
  | .withdrawOp w now =>
      match withdraw vc w now with
      | .ok v => some v
      | .err _ => some vc
      | .panics => none

/-- Run of a sequence of custodian operations. -/
def run (vc : Vault) : List Op → Option Vault
  | [] => some vc
  | op :: ops =>
      match step vc op with
      | some vc1 => run vc1 ops
      | none => none

/-- All custody balances present in the vault are non-negative. -/
def Nonneg (vc : Vault) : Prop :=
  ∀ w b, vc.balances w = some b → 0 ≤ b

/-- Side conditions under which one operation cannot drive a balance
negative: deposits carry a non-negative amount, and a withdrawal's pending
balance is covered by the wallet's custody.  The source checks neither. -/
def opSafe (vc : Vault) : Op → Prop
  | .depositOp _ _ a => 0 ≤ a
  | .withdrawOp w _ =>
      ∀ p, vc.pendingRequests w = some p →
        ∀ b, vc.balances w = some b → p.balance ≤ b
  | _ => True

/-- A run in which every executed operation satisfies `opSafe` at the state
where it executes, ending in the final vault. -/
inductive SafeTrace : Vault → List Op → Vault → Prop
  | nil (vc : Vault) : SafeTrace vc [] vc
  | cons {vc vc1 vc2 : Vault} {op : Op} {ops : List Op} :
      opSafe vc op → step vc op = some vc1 → SafeTrace vc1 ops vc2 →
      SafeTrace vc (op :: ops) vc2

/-- Modelled from the spec: §4.1 validation of a received snapshot, for
comparison with what the node actually checks.  Items modelled: (1)
structural (non-empty participants, aligned signature array), (3) every
participant authorized, (5) quorum size.  Item (2) canonical ordering and
item (4) cryptographic signature verification need the hash function and
keys, which the Go node neither has nor checks; the comparisons below
exercise only the modelled items. -/
def spec41Validation (authorized : Str → Bool) (minQuorum : Nat) (s : State) : Bool :=
  !s.participants.isEmpty &&
    (s.sigs.length == s.participants.length) &&
    s.participants.all authorized &&
    (minQuorum ≤ s.participants.length)

/-- Minimum quorum configured for the repository's deployment: the demo
client gathers signatures from `Quorum = 3` nodes (cmd/demo), and the
quickstart documents `minQuorum` with default 3; the spec and the Vault
contract make `min_quorum` a system-wide configuration the custodian must
enforce. -/
def deployMinQuorum : Nat := 3

/-- Concrete snapshot fixtures used by the witnesses. -/
def sV1 : State :=
  { wallet := ['a'], token := ['t'], version := 1, balance := 10,
    participants := [['n']], sigs := [['s']] }

def sV2 : State :=
  { sV1 with version := 2, balance := 7 }

/-- Concrete custodian fixture: node `n` authorized, wallet `a` holding a
custody balance of 10 and a pending request for `sV1` opened at instant 0,
challenge period 10. -/
def vcEx1 : Vault where
  balances := fun x => if x = ['a'] then some 10 else none
  pendingRequests := fun x => if x = ['a'] then some sV1 else none
  requestTime := fun x => if x = ['a'] then some 0 else none
  nodeRegistry := fun x => x == ['n']
  challengePeriod := 10
  events := []

theorem firstUnauthorized_eq_none {vc : Vault} {ps : List Str}
    (h : ∀ q ∈ ps, vc.nodeRegistry q = true) :
    firstUnauthorized vc ps = none := by
  unfold firstUnauthorized
  rw [List.find?_eq_none]
  intro x hx
  simp [h x hx]

/-- **C1.** With a pending request `p` (at height `p.version`) stored for
the candidate's wallet and every candidate participant currently
authorized, `Challenge` deletes the pending request (and its clock entry)
and emits the challenge event when the candidate's height is strictly
greater, and returns the "not newer" error leaving the custodian unchanged
when the candidate's height is less than or equal — in particular an
equal-height challenge is rejected. -/
theorem C1_challenge_pending (vc : Vault) (c : State) (challenger : Str) (p : State)
    (hp : vc.pendingRequests c.wallet = some p)
    (hauth : ∀ q ∈ c.participants, vc.nodeRegistry q = true) :
    (p.version < c.version →
        challenge vc c challenger = .ok { vc with
          pendingRequests := mapErase vc.pendingRequests c.wallet
          requestTime := mapErase vc.requestTime c.wallet
          events := vc.events ++ [Event.challenged c challenger] }) ∧
    (c.version ≤ p.version →
        challenge vc c challenger = .error .challengeNotNewer ∧
        afterExcept (challenge vc c challenger) vc = vc) := by
  have hfu := firstUnauthorized_eq_none hauth
  constructor
  · intro hlt
    unfold challenge
    rw [hfu, hp]
    simp only [if_neg (not_le.mpr hlt)]
  · intro hle
    have hch : challenge vc c challenger = .error .challengeNotNewer := by
      unfold challenge
      rw [hfu, hp]
      simp only [if_pos hle]
    exact ⟨hch, by rw [hch]; rfl⟩

theorem C1_witness :
    challenge vcEx1 sV2 ['n'] = .ok { vcEx1 with
      pendingRequests := mapErase vcEx1.pendingRequests ['a']
      requestTime := mapErase vcEx1.requestTime ['a']
      events := [Event.challenged sV2 ['n']] } :=
  (C1_challenge_pending vcEx1 sV2 ['n'] sV1 (by decide) (by decide)).1 (by decide)

/-- Custodian fixture for the quorum claim: the three deployment nodes
`n1`, `n2`, `n3` authorized, nothing pending, challenge period 10. -/
def vcQ : Vault where
  balances := fun _ => none
  pendingRequests := fun _ => none
  requestTime := fun _ => none
  nodeRegistry := fun x => x == ['n', '1'] || x == ['n', '2'] || x == ['n', '3']
  challengePeriod := 10
  events := []

/-- Candidate carrying one participant fewer than the deployment quorum:
two authorized participants with aligned signatures. -/
def sQ2 : State :=
  { wallet := ['a'], token := ['t'], version := 1, balance := 5,
    participants := [['n', '1'], ['n', '2']], sigs := [['s'], ['s']] }

/-- Candidate carrying exactly the deployment quorum of participants. -/
def sQ3 : State :=
  { sQ2 with participants := [['n', '1'], ['n', '2'], ['n', '3']],
             sigs := [['s'], ['s'], ['s']] }

/-- **C8.** Bug exhibited at a concrete input: the configured quorum is
`deployMinQuorum = 3`, and a candidate with exactly three authorized
participants is accepted — but so is a candidate with one participant
fewer (two authorized participants), because `RequestWithdrawal` checks
only that the participant list is non-empty and never enforces the quorum
size the spec (§4.1 item 5, FR-003) and the repository's Vault contract
("Quorum not met") require. -/
theorem C8_quorumNotEnforced :
    (sQ3.participants.length = deployMinQuorum ∧
      requestWithdrawal vcQ sQ3 0 = .ok { vcQ with
        pendingRequests := mapSet vcQ.pendingRequests ['a'] sQ3
        requestTime := mapSet vcQ.requestTime ['a'] 0
        events := [Event.withdrawalRequested sQ3] }) ∧
    (sQ2.participants.length = deployMinQuorum - 1 ∧
      requestWithdrawal vcQ sQ2 0 = .ok { vcQ with
        pendingRequests := mapSet vcQ.pendingRequests ['a'] sQ2
        requestTime := mapSet vcQ.requestTime ['a'] 0
        events := [Event.withdrawalRequested sQ2] }) :=
  ⟨⟨by decide, rfl⟩, ⟨by decide, rfl⟩⟩

/-- **C2.** `Withdraw` succeeds only when a pending request exists and the
elapsed time has reached the challenge period; the snapshot it finalizes is
the stored accepted candidate itself — the custodian takes no finalize
argument and pays out `pending.Balance` — so its encoding (hence digest)
equals the pending request's.  A withdrawal at exactly
`expires_at = opened_at + challenge_period` is accepted, and one before
`expires_at` returns the period error leaving the custodian unchanged. -/
theorem C2_withdraw_conditions (vc : Vault) (w : Str) (now : Int) :
    (∀ vc', withdraw vc w now = .ok vc' →
        ∃ p, vc.pendingRequests w = some p ∧
          vc.challengePeriod ≤ now - (vc.requestTime w).getD 0 ∧
          ∃ fin, vc'.events = vc.events ++ [Event.withdrawn w fin.balance] ∧
            encodeState fin = encodeState p) ∧
    (∀ p t b, vc.pendingRequests w = some p → vc.requestTime w = some t →
        vc.balances w = some b → now = t + vc.challengePeriod →
        withdraw vc w now = .ok { vc with
          balances := mapSet vc.balances w (b - p.balance)
          pendingRequests := mapErase vc.pendingRequests w
          requestTime := mapErase vc.requestTime w
          events := vc.events ++ [Event.withdrawn w p.balance] }) ∧
    (∀ p t, vc.pendingRequests w = some p → vc.requestTime w = some t →
        now - t < vc.challengePeriod →
        withdraw vc w now = .err .challengePeriodNotOver ∧
        withdrawVault (withdraw vc w now) vc = vc) := by
  refine ⟨?_, ?_, ?_⟩
  · intro vc' h
    unfold withdraw at h
    revert h
    cases hpd : vc.pendingRequests w with
    | none => intro h; cases h
    | some p =>
        dsimp only
        split
        · intro h; cases h
        · cases hb : vc.balances w with
          | none => intro h; cases h
          | some b =>
              intro h
              cases h
              exact ⟨p, rfl, not_lt.mp (by assumption), p, rfl, rfl⟩
  · intro p t b hp ht hb hnow
    unfold withdraw
    rw [hp, ht]
    dsimp only [Option.getD]
    have helapsed : now - t = vc.challengePeriod := by omega
    rw [helapsed, if_neg (lt_irrefl vc.challengePeriod), hb]
  · intro p t hp ht hlt
    have hw : withdraw vc w now = .err .challengePeriodNotOver := by
      unfold withdraw
      rw [hp, ht]
      dsimp only [Option.getD]
      rw [if_pos hlt]
    exact ⟨hw, by rw [hw]; rfl⟩

theorem C2_witness :
    withdraw vcEx1 ['a'] 10 = .ok { vcEx1 with
      balances := mapSet vcEx1.balances ['a'] 0
      pendingRequests := mapErase vcEx1.pendingRequests ['a']
      requestTime := mapErase vcEx1.requestTime ['a']
      events := [Event.withdrawn ['a'] 10] } :=
  (C2_withdraw_conditions vcEx1 ['a'] 10).2.1 sV1 0 10 (by decide) (by decide)
    (by decide) (by decide)

/-- **C5.** A successful `Withdraw` on wallet `w` deletes the pending
request for `w`, debits the custody of `w` by exactly the pending state's
balance, emits a `Withdrawn` event carrying that amount, and leaves the
custody balances and pending requests of every other wallet, the node
registry and the challenge period unchanged.  Custody is keyed by wallet
only in the source; the deposit token appears in events, not in the key. -/
theorem C5_withdraw_frame (vc : Vault) (w : Str) (now : Int) (vc' : Vault)
    (h : withdraw vc w now = .ok vc') :
    ∃ p b, vc.pendingRequests w = some p ∧ vc.balances w = some b ∧
      vc'.pendingRequests w = none ∧
      vc'.balances w = some (b - p.balance) ∧
      vc'.events = vc.events ++ [Event.withdrawn w p.balance] ∧
      (∀ w2, w2 ≠ w → vc'.balances w2 = vc.balances w2) ∧
      (∀ w2, w2 ≠ w → vc'.pendingRequests w2 = vc.pendingRequests w2) ∧
      (∀ w2, w2 ≠ w → vc'.requestTime w2 = vc.requestTime w2) ∧
      vc'.nodeRegistry = vc.nodeRegistry ∧
      vc'.challengePeriod = vc.challengePeriod := by
  unfold withdraw at h
  revert h
  cases hpd : vc.pendingRequests w with
  | none => intro h; cases h
  | some p =>
      dsimp only
      split
      · intro h; cases h
      · cases hb : vc.balances w with
        | none => intro h; cases h
        | some b =>
            intro h
            cases h
            refine ⟨p, b, rfl, rfl, ?_, ?_, rfl, ?_, ?_, ?_, rfl, rfl⟩
            · simp [mapErase]
            · simp [mapSet]
            · intro w2 hw2; simp [mapSet, hw2]
            · intro w2 hw2; simp [mapErase, hw2]
            · intro w2 hw2; simp [mapErase, hw2]

/-- Post-state of the concrete successful withdrawal used as witness. -/
def vcEx1After : Vault :=
  withdrawVault (withdraw vcEx1 ['a'] 20) vcEx1

theorem C5_witness :
    vcEx1After.pendingRequests ['a'] = none ∧
    vcEx1After.balances ['a'] = some 0 ∧
    vcEx1After.balances ['b'] = vcEx1.balances ['b'] := by
  obtain ⟨p, b, hp, hb, h1, h2, h3, h4, h5, h6, h7, h8⟩ :=
    C5_withdraw_frame vcEx1 ['a'] 20 vcEx1After rfl
  have hps : p = sV1 := by
    have : some p = some sV1 := hp.symm.trans (by decide)
    exact (Option.some.injEq _ _).mp this.symm |>.symm
  have hbs : b = (10 : Int) := by
    have : some b = some (10 : Int) := hb.symm.trans (by decide)
    exact (Option.some.injEq _ _).mp this.symm |>.symm
  refine ⟨h1, ?_, h4 ['b'] (by decide)⟩
  rw [h2, hps, hbs]
  rfl

/-- **C3.** Bug exhibited at a concrete input: with a pending request
already stored for wallet `a` (snapshot `sV1`, opened at instant 0), a
second `RequestWithdrawal` on the same channel is accepted — the source has
no pending-exists check — overwriting the original pending request and
restarting the challenge clock, where the repository's Vault contract and
data model ("Request already pending") require rejection with a conflict
error leaving the original in place. -/
theorem C3_secondRequestOverwrites :
    vcEx1.pendingRequests ['a'] = some sV1 ∧
    requestWithdrawal vcEx1 sV2 7 = .ok { vcEx1 with
      pendingRequests := mapSet vcEx1.pendingRequests ['a'] sV2
      requestTime := mapSet vcEx1.requestTime ['a'] 7
      events := [Event.withdrawalRequested sV2] } ∧
    sV2 ≠ sV1 :=
  ⟨by decide, rfl, by decide⟩

theorem afterExcept_requestWithdrawal_balances (vc : Vault) (s : State) (now : Int) :
    (afterExcept (requestWithdrawal vc s now) vc).balances = vc.balances := by
  by_cases hne : s.participants = []
  · simp [requestWithdrawal, afterExcept, hne]
  · cases hfu : firstUnauthorized vc s.participants <;>
      simp [requestWithdrawal, afterExcept, hne, hfu]

theorem afterExcept_challenge_balances (vc : Vault) (c : State) (ch : Str) :
    (afterExcept (challenge vc c ch) vc).balances = vc.balances := by
  cases hfu : firstUnauthorized vc c.participants with
  | some p => simp [challenge, afterExcept, hfu]
  | none =>
      cases hpd : vc.pendingRequests c.wallet with
      | none => simp [challenge, afterExcept, hfu, hpd]
      | some p =>
          by_cases hv : c.version ≤ p.version <;>
            simp [challenge, afterExcept, hfu, hpd, hv]

/-- Dissection of a successful `Withdraw`: the checks that must have
passed and the exact resulting vault. -/
theorem withdraw_ok_cases {vc : Vault} {w : Str} {now : Int} {vc' : Vault}
    (h : withdraw vc w now = .ok vc') :
    ∃ p b, vc.pendingRequests w = some p ∧ vc.balances w = some b ∧
      ¬ (now - (vc.requestTime w).getD 0 < vc.challengePeriod) ∧
      vc' = { vc with
        balances := mapSet vc.balances w (b - p.balance)
        pendingRequests := mapErase vc.pendingRequests w
        requestTime := mapErase vc.requestTime w
        events := vc.events ++ [Event.withdrawn w p.balance] } := by
  unfold withdraw at h
  revert h
  cases hpd : vc.pendingRequests w with
  | none => intro h; cases h
  | some p =>
      dsimp only
      split
      · intro h; cases h
      · cases hb : vc.balances w with
        | none => intro h; cases h
        | some b =>
            intro h
            cases h
            exact ⟨p, b, rfl, rfl, by assumption, rfl⟩

theorem step_preserves_nonneg {vc vc' : Vault} {op : Op}
    (hinv : Nonneg vc) (hs : opSafe vc op) (hstep : step vc op = some vc') :
    Nonneg vc' := by
  cases op with
  | addNodeOp nodeID =>
      obtain rfl : addNode vc nodeID = vc' := Option.some.inj hstep
      intro w b hb
      exact hinv w b hb
  | depositOp w0 t a =>
      obtain rfl : deposit vc w0 t a = vc' := Option.some.inj hstep
      have ha : (0 : Int) ≤ a := hs
      intro w b hb
      simp only [deposit, mapSet] at hb
      split at hb
      · cases hb
        cases hx : vc.balances w0 with
        | none => simpa using ha
        | some c =>
            have := hinv w0 c hx
            simp only [Option.getD_some]
            exact add_nonneg this ha
      · exact hinv w b hb
  | requestOp s tnow =>
      obtain rfl : afterExcept (requestWithdrawal vc s tnow) vc = vc' :=
        Option.some.inj hstep
      intro w b hb
      rw [afterExcept_requestWithdrawal_balances] at hb
      exact hinv w b hb
  | challengeOp c ch =>
      obtain rfl : afterExcept (challenge vc c ch) vc = vc' :=
        Option.some.inj hstep
      intro w b hb
      rw [afterExcept_challenge_balances] at hb
      exact hinv w b hb
  | withdrawOp w0 tnow =>
      revert hstep
      simp only [step]
      cases hw : withdraw vc w0 tnow with
      | err e =>
          intro hstep
          obtain rfl : vc = vc' := Option.some.inj hstep
          exact hinv
      | panics => intro hstep; cases hstep
      | ok v =>
          intro hstep
          obtain rfl : v = vc' := Option.some.inj hstep
          obtain ⟨p, bal, hp, hbal, helapsed, rfl⟩ := withdraw_ok_cases hw
          intro w b hb
          simp only [mapSet] at hb
          split at hb
          · cases hb
            have hcov : p.balance ≤ bal := hs p hp bal hbal
            omega
          · exact hinv w b hb

theorem safeTrace_nonneg {vc vc' : Vault} {ops : List Op}
    (h : SafeTrace vc ops vc') : Nonneg vc → Nonneg vc' := by
  induction h with
  | nil _ => exact id
  | cons hs hstep _ ih =>
      exact fun hinv => ih (step_preserves_nonneg hinv hs hstep)

/-- **C4** (amended).  Starting from the empty custodian, after any finite
sequence of `addNode` / `deposit` / `request` / `challenge` / `withdraw`
operations in which every deposit amount is non-negative and every
withdrawal's pending balance is covered by the wallet's custody (the
source checks neither condition), every custody balance present in the
final state is non-negative. -/
theorem C4_custody_nonneg (cp : Int) (ops : List Op) (vc' : Vault)
    (h : SafeTrace (emptyVault cp) ops vc') :
    ∀ w b, vc'.balances w = some b → 0 ≤ b :=
  safeTrace_nonneg h (fun _ _ hb => Option.noConfusion hb)

/-- Counterexample to C4 as stated: starting from the empty custodian, the
single deposit operation `Deposit("a", "t", -5)` (the source never checks
the sign of the amount) leaves wallet `a` with custody balance −5. -/
theorem C4_counterexample :
    run (emptyVault 10) [Op.depositOp ['a'] ['t'] (-5)] =
      some (deposit (emptyVault 10) ['a'] ['t'] (-5)) ∧
    (deposit (emptyVault 10) ['a'] ['t'] (-5)).balances ['a'] = some (-5) ∧
    ((-5 : Int) < 0) :=
  ⟨rfl, by decide, by decide⟩

theorem C4_witness : (0 : Int) ≤ 5 :=
  C4_custody_nonneg 10 [Op.depositOp ['a'] ['t'] 5]
    (deposit (emptyVault 10) ['a'] ['t'] 5)
    (SafeTrace.cons (by decide : (0 : Int) ≤ 5) rfl
      (SafeTrace.nil _))
    ['a'] 5 (by decide)

/-- Snapshot that fails §4.1 validation outright: empty participant list. -/
def badSnap : State :=
  { wallet := ['a'], token := ['t'], version := 5, balance := 3,
    participants := [], sigs := [] }

/-- Node fixture storing `sV1` for wallet `a`. -/
def exNode : NodeS where
  id := ['m']
  store := fun x => if x = ['a'] then some sV1 else none

/-- Node fixture with an empty store. -/
def emptyNode : NodeS where
  id := ['m']
  store := fun _ => none

/-- **C6** (amended).  `OnNewState` replaces the stored snapshot for the
received snapshot's wallet exactly when nothing is stored or the received
height is strictly greater; otherwise the store is unchanged — in
particular re-applying the currently stored snapshot is a no-op.  The node
performs no §4.1 validation before storing (see the counterexample). -/
theorem C6_onNewState (n : NodeS) (s : State) :
    (n.store s.wallet = none →
        onNewState n s = { n with store := mapSet n.store s.wallet s }) ∧
    (∀ cur, n.store s.wallet = some cur → cur.version < s.version →
        onNewState n s = { n with store := mapSet n.store s.wallet s }) ∧
    (∀ cur, n.store s.wallet = some cur → s.version ≤ cur.version →
        onNewState n s = n) ∧
    (n.store s.wallet = some s → onNewState n s = n) := by
  refine ⟨?_, ?_, ?_, ?_⟩
  · intro h
    unfold onNewState
    rw [h]
  · intro cur hc hlt
    unfold onNewState
    rw [hc]
    dsimp only
    rw [if_neg (not_le.mpr hlt)]
  · intro cur hc hle
    unfold onNewState
    rw [hc]
    dsimp only
    rw [if_pos hle]
  · intro hc
    unfold onNewState
    rw [hc]
    dsimp only
    rw [if_pos le_rfl]

/-- Counterexample to C6 as stated: `badSnap` fails §4.1 validation (empty
participant list) yet `OnNewState` replaces the stored snapshot, because
the node compares heights only and validates nothing. -/
theorem C6_counterexample :
    spec41Validation (fun x => x == ['n']) deployMinQuorum badSnap = false ∧
    exNode.store ['a'] = some sV1 ∧
    (onNewState exNode badSnap).store ['a'] = some badSnap ∧
    badSnap ≠ sV1 :=
  ⟨by decide, by decide, by decide, by decide⟩

theorem C6_witness : onNewState exNode sV1 = exNode :=
  (C6_onNewState exNode sV1).2.2.2 (by decide)

/-- **C7** (amended).  Processing `WithdrawalRequested(candidate)`: with no
stored snapshot for the candidate's wallet the node takes no action; with a
stored snapshot of strictly greater height it submits a challenge carrying
the stored snapshot; with a stored snapshot of smaller or equal height it
takes no action — in particular it does not store a newer candidate (see
the counterexample).  The local store is unchanged in every case. -/
theorem C7_handleWithdrawalRequest (n : NodeS) (req : State) :
    (n.store req.wallet = none →
        handleWithdrawalRequest n req = (n, .none)) ∧
    (∀ loc, n.store req.wallet = some loc → req.version < loc.version →
        handleWithdrawalRequest n req = (n, .challengeCall loc n.id)) ∧
    (∀ loc, n.store req.wallet = some loc → loc.version ≤ req.version →
        handleWithdrawalRequest n req = (n, .none)) := by
  refine ⟨?_, ?_, ?_⟩
  · intro h
    unfold handleWithdrawalRequest
    rw [h]
  · intro loc hl hlt
    unfold handleWithdrawalRequest
    rw [hl]
    dsimp only
    rw [if_pos hlt]
  · intro loc hl hle
    unfold handleWithdrawalRequest
    rw [hl]
    dsimp only
    rw [if_neg (not_lt.mpr hle)]

/-- Counterexample to C7 as stated: the node stores `sV1` at height 1 and
sees a withdrawal request for `sV2` at height 2; the handler takes no
action and does not store the newer candidate. -/
theorem C7_counterexample :
    exNode.store ['a'] = some sV1 ∧
    sV1.version < sV2.version ∧
    handleWithdrawalRequest exNode sV2 = (exNode, .none) ∧
    (handleWithdrawalRequest exNode sV2).1.store ['a'] ≠ some sV2 :=
  ⟨by decide, by decide, rfl, by decide⟩

theorem C7_witness :
    handleWithdrawalRequest emptyNode sV1 = (emptyNode, .none) :=
  (C7_handleWithdrawalRequest emptyNode sV1).1 rfl

/-- P2P fixture with a single registered node. -/
def exP2P : MockP2P := ⟨[['n']]⟩

/-- **C9** (amended).  With at least one node registered and distinct
registered identities, `GetQuorumNodes(wallet, k)` returns exactly `k`
entries for every `k`; the entries are pairwise distinct exactly when `k`
does not exceed the number of registered nodes — for larger `k` the ring
wrap-around necessarily repeats an identity. -/
theorem C9_quorum_size_distinct (p : MockP2P) (wallet : Str) (k : Nat)
    (hne : p.nodeIDs ≠ []) (hnd : p.nodeIDs.Nodup) :
    (getQuorumNodes p wallet k).length = k ∧
    (k ≤ p.nodeIDs.length → (getQuorumNodes p wallet k).Nodup) ∧
    (p.nodeIDs.length < k → ¬ (getQuorumNodes p wallet k).Nodup) := by
  have hlen : p.nodeIDs.length ≠ 0 := fun h => hne (List.length_eq_zero.mp h)
  unfold getQuorumNodes
  rw [dif_neg hlen]
  dsimp only
  refine ⟨by simp, ?_, ?_⟩
  · intro hk
    refine List.Nodup.map_on ?_ (List.nodup_range k)
    intro x hx y hy hxy
    rw [List.mem_range] at hx hy
    have h2 := congrArg Fin.val ((List.Nodup.get_inj_iff hnd).mp hxy)
    have h3 : Nat.ModEq p.nodeIDs.length x y :=
      Nat.ModEq.add_left_cancel
        (Nat.ModEq.refl (crc32 (strBytes wallet) % p.nodeIDs.length)) h2
    calc x = x % p.nodeIDs.length := (Nat.mod_eq_of_lt (lt_of_lt_of_le hx hk)).symm
    _ = y % p.nodeIDs.length := h3
    _ = y := Nat.mod_eq_of_lt (lt_of_lt_of_le hy hk)
  · intro hk hnodup
    have hinj := (List.nodup_map_iff_inj_on (List.nodup_range k)).mp hnodup
    have h0 : (0 : Nat) ∈ List.range k := by
      rw [List.mem_range]
      omega
    have hNmem : p.nodeIDs.length ∈ List.range k := by
      rw [List.mem_range]
      omega
    refine absurd (hinj 0 h0 p.nodeIDs.length hNmem ?_) (by omega)
    apply congrArg
    apply Fin.ext
    show (crc32 (strBytes wallet) % p.nodeIDs.length + 0) % p.nodeIDs.length =
      (crc32 (strBytes wallet) % p.nodeIDs.length + p.nodeIDs.length) %
        p.nodeIDs.length
    rw [Nat.add_mod_right, Nat.add_zero]

/-- Counterexample to C9 as stated: with one registered node and `k = 2`
the ring wrap-around returns the same identity twice, so the result has
exactly `k` entries but not `k` distinct identities. -/
theorem C9_counterexample :
    exP2P.nodeIDs ≠ [] ∧
    getQuorumNodes exP2P ['w'] 2 = [['n'], ['n']] ∧
    ¬ (getQuorumNodes exP2P ['w'] 2).Nodup :=
  ⟨by decide, by decide, by decide⟩

theorem C9_witness :
    ((getQuorumNodes exP2P ['w'] 1).length = 1 ∧
      (getQuorumNodes exP2P ['w'] 1).Nodup) ∧
    ((getQuorumNodes exP2P ['w'] 2).length = 2 ∧
      ¬ (getQuorumNodes exP2P ['w'] 2).Nodup) :=
  ⟨⟨(C9_quorum_size_distinct exP2P ['w'] 1 (by decide) (by decide)).1,
    (C9_quorum_size_distinct exP2P ['w'] 1 (by decide) (by decide)).2.1
      (by decide)⟩,
   ⟨(C9_quorum_size_distinct exP2P ['w'] 2 (by decide) (by decide)).1,
    (C9_quorum_size_distinct exP2P ['w'] 2 (by decide) (by decide)).2.2
      (by decide)⟩⟩

/-- Value read back from a digit string, most significant digit first. -/
def charsVal (l : List Char) : Nat :=
  l.foldl (fun a c => a * 10 + (c.toNat - 48)) 0

theorem digitChar_toNat {d : Nat} (hd : d < 10) :
    (digitChar d).toNat = 48 + d := by
  interval_cases d <;> decide

theorem digitChar_ne_sep {d : Nat} (hd : d < 10) :
    digitChar d ≠ ':' ∧ digitChar d ≠ ',' ∧ digitChar d ≠ '-' := by
  interval_cases d <;> exact ⟨by decide, by decide, by decide⟩

theorem natCharsAux_mem {fuel n : Nat} {c : Char}
    (h : c ∈ natCharsAux fuel n) : ∃ d, d < 10 ∧ c = digitChar d := by
  induction fuel generalizing n with
  | zero => cases h
  | succ fuel ih =>
      unfold natCharsAux at h
      split at h
      · cases h
      · rw [List.mem_append] at h
        cases h with
        | inl h => exact ih h
        | inr h =>
            rw [List.mem_singleton] at h
            exact ⟨n % 10, Nat.mod_lt _ (by omega), h⟩

theorem foldl_digit_append (l : List Char) (c : Char) (a : Nat) :
    (l ++ [c]).foldl (fun a c => a * 10 + (c.toNat - 48)) a =
      (l.foldl (fun a c => a * 10 + (c.toNat - 48)) a) * 10 + (c.toNat - 48) := by
  simp [List.foldl_append]

theorem natCharsAux_val {fuel : Nat} : ∀ {n : Nat}, n ≤ fuel → ∀ a,
    (natCharsAux fuel n).foldl (fun a c => a * 10 + (c.toNat - 48)) a =
      a * 10 ^ (natCharsAux fuel n).length + n := by
  induction fuel with
  | zero =>
      intro n hn a
      interval_cases n
      simp [natCharsAux]
  | succ fuel ih =>
      intro n hn a
      unfold natCharsAux
      split
      · simp only [List.foldl_nil, List.length_nil, pow_zero, Nat.mul_one]
        omega
      · rw [foldl_digit_append, ih (by omega) a,
          digitChar_toNat (Nat.mod_lt _ (by omega)),
          List.length_append, List.length_singleton]
        have hdig : 48 + n % 10 - 48 = n % 10 := by omega
        rw [hdig]
        calc (a * 10 ^ (natCharsAux fuel (n / 10)).length + n / 10) * 10 + n % 10
            = a * (10 ^ (natCharsAux fuel (n / 10)).length * 10) +
                (10 * (n / 10) + n % 10) := by ring
        _ = a * (10 ^ (natCharsAux fuel (n / 10)).length * 10) + n := by
              rw [Nat.div_add_mod]
        _ = a * 10 ^ ((natCharsAux fuel (n / 10)).length + 1) + n := by
              rw [pow_succ]

theorem charsVal_natChars (n : Nat) : charsVal (natChars n) = n := by
  unfold natChars charsVal
  split
  · rename_i h
    subst h
    decide
  · simpa using natCharsAux_val (le_refl n) 0

theorem natChars_injective {m n : Nat} (h : natChars m = natChars n) :
    m = n := by
  have hm := charsVal_natChars m
  rw [h, charsVal_natChars n] at hm
  exact hm.symm

theorem natChars_mem {n : Nat} {c : Char} (h : c ∈ natChars n) :
    ∃ d, d < 10 ∧ c = digitChar d := by
  unfold natChars at h
  split at h
  · rw [List.mem_singleton] at h
    exact ⟨0, by omega, by rw [h]; rfl⟩
  · exact natCharsAux_mem h

theorem natChars_colon_not_mem (n : Nat) : ':' ∉ natChars n := by
  intro h
  obtain ⟨d, hd, hc⟩ := natChars_mem h
  exact (digitChar_ne_sep hd).1 hc.symm

theorem intChars_colon_not_mem (i : Int) : ':' ∉ intChars i := by
  unfold intChars
  split
  · intro h
    rw [List.mem_cons] at h
    cases h with
    | inl h => exact absurd h (by decide)
    | inr h => exact natChars_colon_not_mem _ h
  · exact natChars_colon_not_mem _

theorem intChars_injective {i j : Int} (h : intChars i = intChars j) :
    i = j := by
  unfold intChars at h
  split at h <;> split at h
  · have := natChars_injective (List.cons.inj h).2
    omega
  · exfalso
    have hm : '-' ∈ natChars j.toNat := by
      rw [← h]
      exact List.mem_cons_self _ _
    obtain ⟨d, hd, hc⟩ := natChars_mem hm
    exact (digitChar_ne_sep hd).2.2 hc.symm
  · exfalso
    have hm : '-' ∈ natChars i.toNat := by
      rw [h]
      exact List.mem_cons_self _ _
    obtain ⟨d, hd, hc⟩ := natChars_mem hm
    exact (digitChar_ne_sep hd).2.2 hc.symm
  · have := natChars_injective h
    omega

/-- Splitting at the first occurrence of a separator: when neither prefix
contains the separator, equal strings split into equal parts. -/
theorem append_sep_inj {sep : Char} {a b x y : List Char}
    (ha : sep ∉ a) (hb : sep ∉ b)
    (h : a ++ sep :: x = b ++ sep :: y) : a = b ∧ x = y := by
  induction a generalizing b with
  | nil =>
      cases b with
      | nil => simpa using h
      | cons d b' =>
          simp only [List.nil_append, List.cons_append, List.cons.injEq] at h
          cases h.1
          exact absurd (List.mem_cons_self _ _) hb
  | cons c a' ih =>
      cases b with
      | nil =>
          simp only [List.cons_append, List.nil_append, List.cons.injEq] at h
          cases h.1
          exact absurd (List.mem_cons_self _ _) ha
      | cons d b' =>
          simp only [List.cons_append, List.cons.injEq] at h
          have ha' : sep ∉ a' := fun hm => ha (List.mem_cons_of_mem _ hm)
          have hb' : sep ∉ b' := fun hm => hb (List.mem_cons_of_mem _ hm)
          obtain ⟨h1, h2⟩ := ih ha' hb' h.2
          exact ⟨by rw [h.1, h1], h2⟩

/-- The comma-join of non-empty lists of comma-free strings is injective. -/
theorem joinComma_inj {l1 l2 : List Str}
    (h1 : ∀ p ∈ l1, ',' ∉ p) (h2 : ∀ p ∈ l2, ',' ∉ p)
    (hn1 : l1 ≠ []) (hn2 : l2 ≠ [])
    (h : joinComma l1 = joinComma l2) : l1 = l2 := by
  induction l1 generalizing l2 with
  | nil => exact absurd rfl hn1
  | cons p r1 ih =>
      cases l2 with
      | nil => exact absurd rfl hn2
      | cons q r2 =>
          cases r1 with
          | nil =>
              cases r2 with
              | nil =>
                  have hpq : (p : List Char) = q := h
                  rw [hpq]
              | cons q2 r2' =>
                  exfalso
                  have hsplit : (p : List Char) =
                      q ++ ',' :: joinComma (q2 :: r2') := h
                  have : ',' ∈ (p : List Char) := by
                    rw [hsplit, List.mem_append]
                    exact Or.inr (List.mem_cons_self _ _)
                  exact h1 p (List.mem_cons_self _ _) this
          | cons p2 r1' =>
              cases r2 with
              | nil =>
                  exfalso
                  have hsplit : p ++ ',' :: joinComma (p2 :: r1') =
                      (q : List Char) := h
                  have : ',' ∈ (q : List Char) := by
                    rw [← hsplit, List.mem_append]
                    exact Or.inr (List.mem_cons_self _ _)
                  exact h2 q (List.mem_cons_self _ _) this
              | cons q2 r2' =>
                  have hsplit : p ++ ',' :: joinComma (p2 :: r1') =
                      q ++ ',' :: joinComma (q2 :: r2') := h
                  obtain ⟨hpq, hJ⟩ := append_sep_inj
                    (h1 p (List.mem_cons_self _ _))
                    (h2 q (List.mem_cons_self _ _)) hsplit
                  have htl : (p2 :: r1') = (q2 :: r2') :=
                    ih (fun r hr => h1 r (List.mem_cons_of_mem _ hr))
                      (fun r hr => h2 r (List.mem_cons_of_mem _ hr))
                      (by simp) (by simp) hJ
                  rw [hpq, htl]

/-- **C10** (amended).  On snapshots whose wallet and token contain no
colon and whose participant list is non-empty with comma-free entries
(true of the identifiers this system uses), the colon-and-comma encoding
hashed by `State.Hash` uniquely determines the five encoded fields, so
digests of such snapshots differ whenever a field differs (collision-free
hash assumed).  Without those restrictions the encoding is ambiguous (see
the counterexample). -/
theorem C10_encode_injective {s1 s2 : State}
    (h1w : ':' ∉ s1.wallet) (h2w : ':' ∉ s2.wallet)
    (h1t : ':' ∉ s1.token) (h2t : ':' ∉ s2.token)
    (h1p : ∀ p ∈ s1.participants, ',' ∉ p)
    (h2p : ∀ p ∈ s2.participants, ',' ∉ p)
    (h1n : s1.participants ≠ []) (h2n : s2.participants ≠ [])
    (h : encodeState s1 = encodeState s2) :
    s1.wallet = s2.wallet ∧ s1.token = s2.token ∧
      s1.version = s2.version ∧ s1.balance = s2.balance ∧
      s1.participants = s2.participants := by
  unfold encodeState at h
  obtain ⟨hw, h⟩ := append_sep_inj h1w h2w h
  obtain ⟨ht, h⟩ := append_sep_inj h1t h2t h
  obtain ⟨hv, h⟩ := append_sep_inj (natChars_colon_not_mem _)
    (natChars_colon_not_mem _) h
  obtain ⟨hb, h⟩ := append_sep_inj (intChars_colon_not_mem _)
    (intChars_colon_not_mem _) h
  exact ⟨hw, ht, natChars_injective hv, intChars_injective hb,
    joinComma_inj h1p h2p h1n h2n h⟩

/-- Snapshot with a comma inside a participant identifier. -/
def sJ1 : State :=
  { wallet := ['a'], token := ['t'], version := 1, balance := 2,
    participants := [['x', ',', 'y']], sigs := [] }

/-- Snapshot with the same fields except a two-element participant list. -/
def sJ2 : State :=
  { sJ1 with participants := [['x'], ['y']] }

/-- Counterexample to C10 as stated: two snapshots differing in the
participants sequence whose encodings (hence digests) coincide, because
`strings.Join` with "," cannot distinguish a comma inside an identifier
from a separator. -/
theorem C10_counterexample :
    encodeState sJ1 = encodeState sJ2 ∧ sJ1.participants ≠ sJ2.participants :=
  ⟨by decide, by decide⟩

theorem C10_witness :
    sV1.wallet = sV1.wallet ∧ sV1.token = sV1.token ∧
      sV1.version = sV1.version ∧ sV1.balance = sV1.balance ∧
      sV1.participants = sV1.participants :=
  @C10_encode_injective sV1 sV1 (by decide) (by decide)
    (by decide) (by decide) (by decide) (by decide) (by decide) (by decide)
    rfl
